import Mathlib

/-!
Verification of the MusicVAE inference engine
(src/magenta/models/music_vae/js/index.ts) against its specification.

The TypeScript source computes over deeplearn.js float tensors.  We embed
tensors as rational-valued nested lists (`List ℚ`, `List (List ℚ)` …) and
thread the transcendental activations `sigmoid` and `tanh` as explicit
function parameters `σ τ : ℚ → ℚ`, since the claims under verification are
structural (shapes, orderings, thresholds, exact blends at rational ramp
values) and hold for every choice of activation.
-/

namespace MagentaVAE

/-- Batch of row vectors: outer index is the batch dimension. -/
abbrev Mat : Type := List (List ℚ)

/-- Dot product of two vectors (`zipWith (*)` then sum), the scalar core of
`matMul`. -/
def dot (xs ys : List ℚ) : ℚ :=
  (List.zipWith (fun a b => a * b) xs ys).sum

/-- Elementwise sum of two vectors (tensor `add` on equal shapes). -/
def vadd (xs ys : List ℚ) : List ℚ :=
  List.zipWith (fun a b => a + b) xs ys

/-- Elementwise difference of two vectors (tensor `sub`). -/
def vsub (xs ys : List ℚ) : List ℚ :=
  List.zipWith (fun a b => a - b) xs ys

/-- Scalar multiple of a vector (broadcast `mul`). -/
def smul (c : ℚ) (xs : List ℚ) : List ℚ :=
  xs.map (fun a => c * a)

/-- Zero matrix `dl.zeros([rows, cols])`. -/
def zerosM (rows cols : ℕ) : Mat :=
  (List.range rows).map (fun _ => List.replicate cols (0 : ℚ))

/-- Row-wise concatenation along the feature axis (`dl.concat2d(·, 1)`). -/
def concatRows (a b : Mat) : Mat :=
  List.zipWith (fun r s => r ++ s) a b

/-- Column `j` of a kernel matrix stored as a list of rows. -/
def kernelCol (kernel : Mat) (j : ℕ) : List ℚ :=
  kernel.map (fun r => r.getD j 0)

/-- Weight matrix and bias vector of one affine layer (source `LayerVars`). -/
structure LayerVars where
  kernel : Mat
  bias : List ℚ

/-- Source `dense`: `inputs.matMul(vars.kernel).add(vars.bias)`.  Output row
`j`-entries are the dot of the input row with kernel column `j` plus
`bias[j]`; each output row has width `bias.length` (= kernel column count by
the model invariant). -/
def dense (vars : LayerVars) (inputs : Mat) : Mat :=
  inputs.map (fun row =>
    (List.range vars.bias.length).map
      (fun j => dot row (kernelCol vars.kernel j) + vars.bias.getD j 0))

/-! ## Discrete-encoding utilities (source lines 321–358) -/

/-- ToInt32 (ECMA-262): the wrap of a JS number's integer value into the
signed 32-bit range `[-2^31, 2^31)`, applied by every bitwise operator to
its operands. -/
def toInt32 (x : ℤ) : ℤ :=
  (x + 2 ^ 31) % 2 ^ 32 - 2 ^ 31

/-- JS `x >> d`: ToInt32 the left operand, reduce the shift count mod 32,
arithmetic (sign-preserving, i.e. floor) shift right. -/
def jsShr (x : ℤ) (d : ℕ) : ℤ :=
  Int.fdiv (toInt32 x) (2 ^ (d % 32))

/-- JS `x & 1`: ToInt32 the operand and keep its low two's-complement bit
(0 or 1). -/
def jsAnd1 (x : ℤ) : ℤ :=
  toInt32 x % 2

/-- JS `b << d`: ToInt32 the left operand, reduce the shift count mod 32,
and wrap the shifted value back into signed 32-bit range
(so `1 << 31 = -2^31`). -/
def jsShl (b : ℤ) (d : ℕ) : ℤ :=
  toInt32 (toInt32 b * 2 ^ (d % 32))

/-- Source `intsToBits`: emit `ints[i] >> d & 1` for `d < depth`,
least-significant first, with JS 32-bit bitwise semantics; if the integer
is exactly 0, force bit `depth-1` to 1 (the zero sentinel). -/
def intsToBits (ints : List ℤ) (depth : ℕ) : List (List ℤ) :=
  ints.map (fun x =>
    let b := (List.range depth).map (fun d => jsAnd1 (jsShr x d))
    if x = 0 then b.set (depth - 1) 1 else b)

/-- Source `bitsToInts`: accumulate `b += bits[i][d] << d` over the bit
vector — the shift is a signed 32-bit JS shift, the running sum is plain
number addition (exact at these magnitudes). -/
def bitsToInts (bits : List (List ℤ)) : List ℤ :=
  bits.map (fun bv =>
    (List.range bv.length).foldl (fun acc d => acc + jsShl (bv.getD d 0) d) 0)

/-- Source `intsToOneHot`: row `i` has a 1 at position `ints[i]` (compared as
integers, so out-of-range and negative inputs produce all-zero rows) and 0
elsewhere. -/
def intsToOneHot (ints : List ℤ) (depth : ℕ) : List (List ℕ) :=
  ints.map (fun x =>
    (List.range depth).map (fun (j : ℕ) => if (j : ℤ) = x then 1 else 0))

/-! ## NADE (autoregressive binary output head), source lines 36–79 -/

/-- Weight holder of the source `Nade` class.  `encWeights` and
`decWeightsT` both hold `numDims` rows of width `numHidden` (the source
reshapes rank-3 checkpoint tensors into this layout and reads `numDims`,
`numHidden` off the shape). -/
structure Nade where
  encWeights : Mat
  decWeightsT : Mat
  numDims : ℕ
  numHidden : ℕ

/-- One iteration of the `for (let i = 0; i < numDims; i++)` loop in the
source `Nade.sample`: from the accumulator `a` compute `h = sigmoid(a)`,
slice row `i` of both weight matrices and column `i` of `decBias`, form
`condLogitsI = decBiasI + matMul(h, decWeightsTI, false, true)`, threshold
its sigmoid at 0.5, add `outerProduct(samplesI, encWeightsI)` to `a` only
when `i < numDims - 1`, and push the sample column. -/
def Nade.sampleStep (m : Nade) (sg : ℚ → ℚ) (decBias : Mat) (batchSize : ℕ)
    (st : Mat × List (List ℚ)) (i : ℕ) : Mat × List (List ℚ) :=
  let a := st.1
  let h := a.map (fun row => row.map sg)
  let encWeightsI := m.encWeights.getD i []
  let decWeightsTI := m.decWeightsT.getD i []
  let condLogitsI := (List.range batchSize).map
    (fun b => (decBias.getD b []).getD i 0 + dot (h.getD b []) decWeightsTI)
  let samplesI := condLogitsI.map (fun v => if (1 : ℚ) / 2 ≤ sg v then (1 : ℚ) else 0)
  let a2 :=
    if i < m.numDims - 1 then
      (List.range batchSize).map
        (fun b => vadd (a.getD b []) (smul (samplesI.getD b 0) encWeightsI))
    else a
  (a2, st.2 ++ [samplesI])

/-- Source `Nade.sample`: fold the per-dimension step over `0..numDims-1`
starting from a clone of `encBias`, then `dl.stack(samples, 1)` the collected
per-dimension columns into a `[batch, numDims]` matrix. -/
def Nade.sample (m : Nade) (sg : ℚ → ℚ) (encBias decBias : Mat) : Mat :=
  let batchSize := encBias.length
  let fin := (List.range m.numDims).foldl (m.sampleStep sg decBias batchSize) (encBias, [])
  (List.range batchSize).map (fun b => fin.2.map (fun col => col.getD b 0))

/-- Spec §4.4: the sample column for dimension `i` given accumulator `a` —
`sample_i = 1` exactly when `sigmoid(decBias[:, i] + h · decRow_i) ≥ 0.5`
with `h = sigmoid(a)`, else 0 (the dot is with the i-th row of the
transposed decoder weights, not the encoder row). -/
def nadeCondCol (m : Nade) (sg : ℚ → ℚ) (decBias : Mat) (batchSize : ℕ)
    (a : Mat) (i : ℕ) : List ℚ :=
  (List.range batchSize).map (fun b =>
    if (1 : ℚ) / 2 ≤ sg ((decBias.getD b []).getD i 0 +
        dot ((a.getD b []).map sg) (m.decWeightsT.getD i []))
    then (1 : ℚ) else 0)

/-- Spec §4.4: the accumulator before processing dimension `i` — initialized
to `encBias` and updated by `a += outerProduct(sample_i, encRow_i)` if and
only if `i` is not the last dimension. -/
def nadeSpecA (m : Nade) (sg : ℚ → ℚ) (encBias decBias : Mat) : ℕ → Mat
  | 0 => encBias
  | i + 1 =>
      let a := nadeSpecA m sg encBias decBias i
      let s := nadeCondCol m sg decBias encBias.length a i
      if i ≠ m.numDims - 1 then
        (List.range encBias.length).map
          (fun b => vadd (a.getD b []) (smul (s.getD b 0) (m.encWeights.getD i [])))
      else a

/-- Spec §4.4, assembled: the per-dimension samples of the autoregressive
recurrence stacked along the feature axis into `[batch, numDims]`. -/
def nadeSampleSpec (m : Nade) (sg : ℚ → ℚ) (encBias decBias : Mat) : Mat :=
  (List.range encBias.length).map (fun b =>
    (List.range m.numDims).map (fun i =>
      (nadeCondCol m sg decBias encBias.length
        (nadeSpecA m sg encBias decBias i) i).getD b 0))

/-! ## Recurrent cell primitive and encoder (source lines 81–125) -/

/-- Modelled from the spec: `dl.basicLSTMCell` (external tensor runtime),
described in §4.2 — concatenate input and hidden state, affine-transform by
(kernel, bias) into four gate chunks in the fixed order input-gate,
new-gate (candidate), forget-gate, output-gate; then
`c' = c * sigmoid(forget + fb) + sigmoid(input) * tanh(new)` and
`h' = tanh(c') * sigmoid(output)`. -/
def basicLSTMCell (sg th : ℚ → ℚ) (fb : ℚ) (kernel : Mat) (bias : List ℚ)
    (data c h : Mat) : Mat × Mat :=
  let gates := dense ⟨kernel, bias⟩ (concatRows data h)
  let width := bias.length / 4
  let newC := List.zipWith (fun cRow gRow =>
      let iG := gRow.take width
      let jG := (gRow.drop width).take width
      let fG := (gRow.drop (2 * width)).take width
      vadd (List.zipWith (fun cv fv => cv * sg (fv + fb)) cRow fG)
        (List.zipWith (fun iv jv => sg iv * th jv) iG jG)) c gates
  let newH := List.zipWith (fun ncRow gRow =>
      let oG := (gRow.drop (3 * width)).take width
      List.zipWith (fun nv ov => th nv * sg ov) ncRow oG) newC gates
  (newC, newH)

/-- Source `Encoder.runLstm`: fold the recurrent cell over time indices
`0..T-1` (or `T-1..0` when `rev` is set, via `index = length - 1 - i`),
starting from zero states of width `bias.length / 4`; returns the final
(cellState, hiddenState) pair. -/
def runLstm (sg th : ℚ → ℚ) (inputs : List Mat) (lstmVars : LayerVars)
    (rev : Bool) : Mat × Mat :=
  let batchSize := inputs.length
  let len := (inputs.headD []).length
  let w := lstmVars.bias.length / 4
  (List.range len).foldl
    (fun st i =>
      let index := if rev then len - 1 - i else i
      let data := inputs.map (fun r => r.getD index [])
      basicLSTMCell sg th 1 lstmVars.kernel lstmVars.bias data st.1 st.2)
    (zerosM batchSize w, zerosM batchSize w)

/-- The three weight sets of the source `Encoder` class. -/
structure Encoder where
  lstmFwVars : LayerVars
  lstmBwVars : LayerVars
  muVars : LayerVars

/-- Source `Encoder.encode`: run the cell forward with the forward weights
and backward with the backward weights, concatenate the two final hidden
states along the feature axis, and apply the `mu` projection. -/
def Encoder.encode (e : Encoder) (sg th : ℚ → ℚ) (sequence : List Mat) : Mat :=
  let fwState := runLstm sg th sequence e.lstmFwVars false
  let bwState := runLstm sg th sequence e.lstmBwVars true
  let finalState := concatRows fwState.2 bwState.2
  dense e.muVars finalState

/-- The list of per-time-step input slices `[batch, D]`, in time order. -/
def timeSlices (inputs : List Mat) : List Mat :=
  (List.range (inputs.headD []).length).map
    (fun t => inputs.map (fun r => r.getD t []))

/-- Spec §4.3: fold the recurrent cell (forget bias 1) over a given list of
time slices, starting from zero-initialized states of width
`bias.length / 4`. -/
def lstmOverSlices (sg th : ℚ → ℚ) (lstmVars : LayerVars) (batchSize : ℕ)
    (slices : List Mat) : Mat × Mat :=
  slices.foldl
    (fun st data => basicLSTMCell sg th 1 lstmVars.kernel lstmVars.bias data st.1 st.2)
    (zerosM batchSize (lstmVars.bias.length / 4),
      zerosM batchSize (lstmVars.bias.length / 4))

/-- Spec §4.3: run the cell forward over time steps `0..T-1` with the
forward weights and over the reversed slice list with the backward weights,
keep only each direction's final hiddenState, concatenate
`[forwardFinalHidden, backwardFinalHidden]`, and apply `muProjection`. -/
def encodeSpec (e : Encoder) (sg th : ℚ → ℚ) (sequence : List Mat) : Mat :=
  let fwH := (lstmOverSlices sg th e.lstmFwVars sequence.length (timeSlices sequence)).2
  let bwH := (lstmOverSlices sg th e.lstmBwVars sequence.length (timeSlices sequence).reverse).2
  dense e.muVars (concatRows fwH bwH)

/-! ## Decoder (source lines 127–197) -/

/-- Pairing of each recurrent layer's weights with its current
(cellState, hiddenState), as `dl.multiRNNCell` consumes them by index. -/
def zipStates : List LayerVars → List Mat → List Mat → List (LayerVars × Mat × Mat)
  | lv :: cells, ci :: cs, hi :: hs => (lv, ci, hi) :: zipStates cells cs hs
  | _, _, _ => []

/-- Modelled from the spec: `dl.multiRNNCell` (external tensor runtime),
§4.5 step 3a — layer 0 consumes the given input, each subsequent layer
consumes the previous layer's new hidden state, and every layer's new
(cellState, hiddenState) is collected in layer order. -/
def multiRNNCell (sg th : ℚ → ℚ) (fb : ℚ) :
    List (LayerVars × Mat × Mat) → Mat → List Mat × List Mat
  | [], _ => ([], [])
  | (lv, ci, hi) :: rest, input =>
      let st := basicLSTMCell sg th fb lv.kernel lv.bias input ci hi
      let restOut := multiRNNCell sg th fb rest st.2
      (st.1 :: restOut.1, st.2 :: restOut.2)

/-- Helper recursion of `argMax`: scan the row keeping the index of the
first strictly greatest value seen so far. -/
def argMaxGo : List ℚ → ℕ → ℕ → ℚ → ℕ
  | [], _, best, _ => best
  | v :: rest, i, best, bv =>
      if bv < v then argMaxGo rest (i + 1) i v else argMaxGo rest (i + 1) best bv

/-- Index of the first maximal entry of a row (`logits.argMax(1)`). -/
def argMax (row : List ℚ) : ℕ :=
  argMaxGo row 0 0 (row.headD 0)

/-- Row of `dl.oneHot`: 1 at the label index, 0 elsewhere, width `depth`. -/
def oneHotRow (label depth : ℕ) : List ℚ :=
  (List.range depth).map (fun j => if j = label then (1 : ℚ) else 0)

/-- The weight sets of the source `Decoder` class; `nade` is the optional
autoregressive-binary output head. -/
structure Decoder where
  lstmCellVars : List LayerVars
  zToInitStateVars : LayerVars
  outputProjectVars : LayerVars
  nade : Option Nade

/-- Source: `outputDims = nade ? nade.numDims : outputProjectVars.bias.shape[0]`. -/
def Decoder.outputDims (d : Decoder) : ℕ :=
  match d.nade with
  | some m => m.numDims
  | none => d.outputProjectVars.bias.length

/-- The per-layer slicing of the tanh-squashed initial-state vector: each
layer consumes a cellState slice then a hiddenState slice, both of width
`bias.length / 4`, at increasing column offsets. -/
def initStatesSplit : List LayerVars → ℕ → Mat → List Mat × List Mat
  | [], _, _ => ([], [])
  | lv :: rest, off, st =>
      let w := lv.bias.length / 4
      let ci := st.map (fun r => (r.drop off).take w)
      let hi := st.map (fun r => (r.drop (off + w)).take w)
      let rest2 := initStatesSplit rest (off + 2 * w) st
      (ci :: rest2.1, hi :: rest2.2)

/-- One decode step of the recurrent stack: feed `concat([nextInput, z], 1)`
to `dl.multiRNNCell` over the layer/state pairs, returning all layers' new
(cellState, hiddenState). -/
def decodeStepStates (d : Decoder) (sg th : ℚ → ℚ) (z : Mat) (c h : List Mat)
    (nextInput : Mat) : List Mat × List Mat :=
  multiRNNCell sg th 1 (zipStates d.lstmCellVars c h) (concatRows nextInput z)

/-- The logits of one decode step: `dense(outputProjectVars, h[h.length-1])`
on the new hidden state of the last recurrent layer. -/
def decodeLogits (d : Decoder) (sg th : ℚ → ℚ) (z : Mat) (c h : List Mat)
    (nextInput : Mat) : Mat :=
  dense d.outputProjectVars ((decodeStepStates d sg th z c h nextInput).2.getLastD [])

/-- The generation loop of `Decoder.decode`: at each step run the recurrent
stack, project the last layer's hidden state to logits, then either take
`argMax` per batch row (recording it as a width-1 column and feeding a
one-hot back), or split the logits into `(encBias, decBias)` and draw a
NADE sample (recording and feeding back the binary vector). -/
def decodeLoop (d : Decoder) (sg th : ℚ → ℚ) (z : Mat) :
    List Mat → List Mat → Mat → ℕ → List Mat
  | _, _, _, 0 => []
  | c, h, nextInput, steps + 1 =>
      let out := decodeStepStates d sg th z c h nextInput
      let logits := decodeLogits d sg th z c h nextInput
      match d.nade with
      | none =>
          let labels := logits.map argMax
          let ni2 := labels.map (fun k => oneHotRow k d.outputDims)
          let ts := labels.map (fun (k : ℕ) => [(k : ℚ)])
          ts :: decodeLoop d sg th z out.1 out.2 ni2 steps
      | some m =>
          let encBias := (List.range z.length).map
            (fun b => (logits.getD b []).take m.numHidden)
          let decBias := (List.range z.length).map
            (fun b => ((logits.getD b []).drop m.numHidden).take m.numDims)
          let ni2 := m.sample sg encBias decBias
          ni2 :: decodeLoop d sg th z out.1 out.2 ni2 steps

/-- Source `Decoder.decode`: derive the initial per-layer states from
`tanh(dense(zToInitState, z))`, run the generation loop for `length` steps
from a zero `nextInput`, and `dl.stack(samples, 1)` the per-step outputs
along the time axis into `[batch, length, ·]`. -/
def Decoder.decode (d : Decoder) (sg th : ℚ → ℚ) (z : Mat) (length : ℕ) :
    List (List (List ℚ)) :=
  let batchSize := z.length
  let initialStates := (dense d.zToInitStateVars z).map (fun r => r.map th)
  let st := initStatesSplit d.lstmCellVars 0 initialStates
  let samples := decodeLoop d sg th z st.1 st.2 (zerosM batchSize d.outputDims) length
  (List.range batchSize).map (fun b => samples.map (fun s => s.getD b []))

/-- A minimal argmax-head decoder for concrete evaluation: one recurrent
layer of hidden width 1 (bias width 4), a width-2 initial-state projection,
and a two-way output projection (`outputDims = 2`). -/
def tinyArgmaxDecoder : Decoder :=
  ⟨[⟨[[0, 0, 0, 0], [0, 0, 0, 0], [0, 0, 0, 0], [0, 0, 0, 0]], [0, 0, 0, 0]⟩],
    ⟨[[0, 0]], [0, 0]⟩, ⟨[[0, 0]], [0, 0]⟩, none⟩

/-! ## Latent-space interpolation (source lines 266–310) -/

/-- `dl.linspace(0.0, 1.0, numSteps)`: value `i` is `i * (1 - 0)/(numSteps - 1)`. -/
def linspace (numSteps : ℕ) : List ℚ :=
  (List.range numSteps).map (fun (i : ℕ) => (i : ℚ) / ((numSteps : ℚ) - 1))

/-- The N=2 branch of the source `interpolate` tidy block:
`outerProduct(rangeArray, z1 - z0).add(z0)` — row `i` is
`t_i * (z1 - z0) + z0`. -/
def interpolateZs2 (z : Mat) (numSteps : ℕ) : Mat :=
  let z0 := z.getD 0 []
  let z1 := z.getD 1 []
  let zDiff := vsub z1 z0
  (linspace numSteps).map (fun t => vadd (smul t zDiff) z0)

/-- The N=4 branch of the source `interpolate` tidy block: sum (with
`addStrict`, left-associated in source order) of each corner latent scaled
by the matching outer product of the ramp (`t`) and reversed ramp (`1-t`)
arrays, flattened `as2D(numSteps^2, Z)` in row-major order (`i` outer, `j`
inner). -/
def interpolateZs4 (z : Mat) (numSteps : ℕ) : Mat :=
  let ts := linspace numSteps
  let z0 := z.getD 0 []
  let z1 := z.getD 1 []
  let z2 := z.getD 2 []
  let z3 := z.getD 3 []
  ((List.range numSteps).map (fun i =>
    (List.range numSteps).map (fun j =>
      let ti := ts.getD i 0
      let tj := ts.getD j 0
      vadd (vadd (vadd (smul ((1 - ti) * (1 - tj)) z0)
        (smul (ti * (1 - tj)) z1))
        (smul ((1 - ti) * tj) z2))
        (smul (ti * tj) z3)))).flatten

/-- The encoder/decoder pair of the source `MusicVAE` class, after
initialization. -/
structure MusicVAE where
  encoder : Encoder
  decoder : Decoder

/-- Source `MusicVAE.interpolate`: reject a batch size other than 2 or 4
with an invalid-argument error before anything else; otherwise encode the
references, blend the latents linearly (N=2) or bilinearly (N=4), and
decode the blended batch with the references' time length. -/
def MusicVAE.interpolate (mv : MusicVAE) (sg th : ℚ → ℚ) (sequences : List Mat)
    (numSteps : ℕ) : Except String (List (List (List ℚ))) :=
  if sequences.length ≠ 2 ∧ sequences.length ≠ 4 then
    Except.error "Invalid number of input sequences. Requires length 2, or 4"
  else
    let z := mv.encoder.encode sg th sequences
    let interpolatedZs :=
      if sequences.length = 2 then interpolateZs2 z numSteps
      else interpolateZs4 z numSteps
    Except.ok (mv.decoder.decode sg th interpolatedZs (sequences.headD []).length)

/-! ## Weight binding at initialize time (source lines 199–264) -/

/-- A checkpoint array of rank 1, 2 or 3, as stored in the loose
`rawVars` key/value store. -/
inductive Tensor where
  | t1 : List ℚ → Tensor
  | t2 : List (List ℚ) → Tensor
  | t3 : List (List (List ℚ)) → Tensor

/-- The external checkpoint store: named tensors, looked up by exact
string name. -/
abbrev VarStore := List (String × Tensor)

/-- `vars[name]`: JavaScript property access on the store — `none`
(undefined) when the name is absent, never an error. -/
def lookupVar (vars : VarStore) (name : String) : Option Tensor :=
  (vars.find? (fun p => p.1 == name)).map Prod.snd

/-- `name in vars`: presence test used by the cell probe and the NADE
configuration check. -/
def containsVar (vars : VarStore) (name : String) : Bool :=
  (vars.find? (fun p => p.1 == name)).isSome

/-- `DECODER_CELL_FORMAT.replace('%d', l) + part`. -/
def decoderCellName (l : ℕ) (part : String) : String :=
  "decoder/multi_rnn_cell/cell_" ++ toString l ++ "/lstm_cell/" ++ part

/-- A kernel/bias pair exactly as bound at initialize time: each entry is
whatever the store lookup produced, possibly absent — the constructor
performs no validation. -/
structure LayerVarsOpt where
  kernel : Option Tensor
  bias : Option Tensor

/-- The NADE weight pair as bound at initialize time. -/
structure NadeOpt where
  encWeights : Option Tensor
  decWeightsT : Option Tensor

/-- The encoder weight binding produced by `initialize`. -/
structure EncoderOpt where
  lstmFw : LayerVarsOpt
  lstmBw : LayerVarsOpt
  mu : LayerVarsOpt

/-- The decoder weight binding produced by `initialize`. -/
structure DecoderOpt where
  cells : List LayerVarsOpt
  zToInitState : LayerVarsOpt
  outputProjection : LayerVarsOpt
  nade : Option NadeOpt

/-- The `MusicVAE` instance state: `encoder`/`decoder` are null before
`initialize` and set afterwards (`isInitialized` checks both). -/
structure MusicVAEState where
  encoder : Option EncoderOpt
  decoder : Option DecoderOpt

/-- The `while (true)` probe for `cell_0, cell_1, …`: stops at the first
`l` whose kernel name is absent.  `fuel` bounds the scan (a store with
`k` entries can satisfy at most `k` distinct probes, so
`vars.length + 1` fuel is enough for the loop to stop naturally). -/
def probeCells (vars : VarStore) : ℕ → ℕ → List LayerVarsOpt
  | 0, _ => []
  | fuel + 1, l =>
      if containsVar vars (decoderCellName l "kernel") then
        ⟨lookupVar vars (decoderCellName l "kernel"),
          lookupVar vars (decoderCellName l "bias")⟩ ::
          probeCells vars fuel (l + 1)
      else []

/-- The `const nade = ('decoder/nade/w_enc' in vars) ? new Nade(...) : null`
step of `initialize` (source lines 250–253).  When the guard passes, the
`Nade` constructor immediately dereferences both weight tensors
(`encWeights.shape`, `encWeights.as2D`, `decWeightsT.as2D`, lines 43–47), so
an absent (`undefined`) entry — only `decoder/nade/w_dec_t` can be absent
here, as the guard checked `w_enc` — throws a TypeError. -/
def nadeConstruct (vars : VarStore) : Except String (Option NadeOpt) :=
  if containsVar vars "decoder/nade/w_enc" then
    match lookupVar vars "decoder/nade/w_enc", lookupVar vars "decoder/nade/w_dec_t" with
    | some we, some wd => Except.ok (some ⟨some we, some wd⟩)
    | _, _ => Except.error "TypeError: cannot read properties of undefined"
  else Except.ok none

/-- Source `MusicVAE.initialize` after the checkpoint fetch: every name is
bound by plain store lookup (a lookup itself never fails — a missing key is
just `undefined`), but the constructors dereference some of the bound
tensors to read shapes, and dereferencing an absent entry throws: `Nade`
reads both of its weight tensors (lines 43–47), `Encoder` reads
`muVars.bias.shape[0]` (line 91), `Decoder` reads
`zToInitStateVars.kernel.shape[0]` (line 141) and — only when no NADE head
is configured, by the ternary's short circuit — `outputProjectVars.bias.shape[0]`
(line 142).  Required names that are never dereferenced (e.g.
`encoder/mu/kernel`, the encoder LSTM weights) are bound silently even when
absent.  On success both `encoder` and `decoder` are set. -/
def initializeVars (vars : VarStore) : Except String MusicVAEState :=
  let encLstmFw : LayerVarsOpt :=
    ⟨lookupVar vars "encoder/cell_0/bidirectional_rnn/fw/multi_rnn_cell/cell_0/lstm_cell/kernel",
      lookupVar vars "encoder/cell_0/bidirectional_rnn/fw/multi_rnn_cell/cell_0/lstm_cell/bias"⟩
  let encLstmBw : LayerVarsOpt :=
    ⟨lookupVar vars "encoder/cell_0/bidirectional_rnn/bw/multi_rnn_cell/cell_0/lstm_cell/kernel",
      lookupVar vars "encoder/cell_0/bidirectional_rnn/bw/multi_rnn_cell/cell_0/lstm_cell/bias"⟩
  let encMu : LayerVarsOpt :=
    ⟨lookupVar vars "encoder/mu/kernel", lookupVar vars "encoder/mu/bias"⟩
  let decLstmLayers := probeCells vars (vars.length + 1) 0
  let decZtoInitState : LayerVarsOpt :=
    ⟨lookupVar vars "decoder/z_to_initial_state/kernel",
      lookupVar vars "decoder/z_to_initial_state/bias"⟩
  let decOutputProjection : LayerVarsOpt :=
    ⟨lookupVar vars "decoder/output_projection/kernel",
      lookupVar vars "decoder/output_projection/bias"⟩
  match nadeConstruct vars with
  | Except.error e => Except.error e
  | Except.ok nade =>
    match lookupVar vars "encoder/mu/bias" with
    | none => Except.error "TypeError: cannot read properties of undefined"
    | some _ =>
      match lookupVar vars "decoder/z_to_initial_state/kernel" with
      | none => Except.error "TypeError: cannot read properties of undefined"
      | some _ =>
        match nade, lookupVar vars "decoder/output_projection/bias" with
        | none, none => Except.error "TypeError: cannot read properties of undefined"
        | _, _ =>
          Except.ok
            { encoder := some ⟨encLstmFw, encLstmBw, encMu⟩,
              decoder := some ⟨decLstmLayers, decZtoInitState,
                decOutputProjection, nade⟩ }

/-- Source `isInitialized`: `!!this.encoder && !!this.decoder`. -/
def isInitialized (st : MusicVAEState) : Bool :=
  st.encoder.isSome && st.decoder.isSome

/-- `isInitialized()` as observed after an `initialize` call that either
resolved or threw: a throw propagates out of `initialize` with
`this.decoder` (assigned last, source line 256) still unset, so
`isInitialized` returns false on every error path. -/
def isInitializedAfter (res : Except String MusicVAEState) : Bool :=
  match res with
  | Except.ok st => isInitialized st
  | Except.error _ => false

/-- A store containing every tensor the constructors dereference for the
argmax configuration (`encoder/mu/bias`, `decoder/z_to_initial_state/kernel`,
`decoder/output_projection/bias`; no NADE names) but missing the required
name `encoder/mu/kernel`, which `initialize` binds without dereferencing. -/
def storeMissingMuKernel : VarStore :=
  [("encoder/mu/bias", Tensor.t1 [0]),
    ("decoder/z_to_initial_state/kernel", Tensor.t2 [[0]]),
    ("decoder/output_projection/bias", Tensor.t1 [0])]

/-- A minimal full model (encoder plus `tinyArgmaxDecoder`) for concrete
evaluation of the orchestration paths. -/
def tinyMusicVAE : MusicVAE :=
  ⟨⟨⟨[[0, 0, 0, 0], [0, 0, 0, 0]], [0, 0, 0, 0]⟩,
    ⟨[[0, 0, 0, 0], [0, 0, 0, 0]], [0, 0, 0, 0]⟩,
    ⟨[[0], [0]], [0]⟩⟩, tinyArgmaxDecoder⟩

/-! ### Helper lemmas for the bit utilities -/

lemma foldl_add_eq_sum {M : Type} [AddCommMonoid M] (f : ℕ → M) (l : List ℕ) :
    l.foldl (fun acc d => acc + f d) 0 = (l.map f).sum := by
  have h : ∀ (l2 : List ℕ) (a : M),
      l2.foldl (fun acc d => acc + f d) a = a + (l2.map f).sum := by
    intro l2
    induction l2 with
    | nil => intro a; simp
    | cons x xs ih =>
        intro a
        rw [List.foldl_cons, ih, List.map_cons, List.sum_cons, add_assoc]
  simpa using h l 0

lemma sum_low_bits (d x : ℕ) :
    ((List.range d).map (fun i => x / 2 ^ i % 2 * 2 ^ i)).sum = x % 2 ^ d := by
  induction d with
  | zero => simp [Nat.mod_one]
  | succ d ih =>
      rw [List.range_succ, List.map_append, List.sum_append, ih]
      simp only [List.map_cons, List.map_nil, List.sum_cons, List.sum_nil]
      rw [Nat.mod_pow_succ]
      ring

lemma getD_map_range {α : Type} (f : ℕ → α) (n i : ℕ) (h : i < n) (d0 : α) :
    ((List.range n).map f).getD i d0 = f i := by
  rw [List.getD_eq_getElem?_getD, List.getElem?_map, List.getElem?_range h]
  rfl

lemma set_one_replicate {α : Type} (z o : α) :
    ∀ k : ℕ, (List.replicate (k + 1) z).set k o =
      List.replicate k z ++ [o] := by
  intro k
  induction k with
  | zero => rfl
  | succ k ih =>
      have h1 : List.replicate (k + 1 + 1) z = z :: List.replicate (k + 1) z := rfl
      have h2 : (z :: List.replicate (k + 1) z).set (k + 1) o =
          z :: (List.replicate (k + 1) z).set k o := rfl
      rw [h1, h2, ih]
      rfl

lemma getD_replicate_append_one {α : Type} (z o : α) (k i : ℕ) (h : i < k) :
    (List.replicate k z ++ [o]).getD i z = z := by
  have hlen : i < (List.replicate k z).length := by simpa using h
  rw [List.getD_eq_getElem?_getD, List.getElem?_append_left hlen]
  simp [List.getElem?_replicate, h]

lemma getD_replicate_append_one_last {α : Type} (z o : α) (k : ℕ) :
    (List.replicate k z ++ [o]).getD k z = o := by
  rw [List.getD_eq_getElem?_getD]
  rw [List.getElem?_append_right (by simp)]
  simp

lemma toInt32_eq_self (x : ℤ) (h1 : -(2 ^ 31) ≤ x) (h2 : x < 2 ^ 31) :
    toInt32 x = x := by
  unfold toInt32
  rw [Int.emod_eq_of_lt (by omega) (by omega)]
  omega

lemma neg_pow31_le_natCast (n : ℕ) : -(2 ^ 31 : ℤ) ≤ (n : ℤ) :=
  le_trans (by norm_num) (Int.natCast_nonneg n)

lemma jsbit_eq (n : ℕ) (d : ℕ) (hn : (n : ℤ) < 2 ^ 31) (hd : d < 32) :
    jsAnd1 (jsShr (n : ℤ) d) = ((n / 2 ^ d % 2 : ℕ) : ℤ) := by
  unfold jsShr jsAnd1
  rw [Nat.mod_eq_of_lt hd]
  rw [toInt32_eq_self _ (neg_pow31_le_natCast n) hn]
  rw [Int.fdiv_eq_ediv _ (by positivity)]
  have hdiv : (n : ℤ) / (2 : ℤ) ^ d = ((n / 2 ^ d : ℕ) : ℤ) := by
    push_cast
    rfl
  rw [hdiv]
  have hle : ((n / 2 ^ d : ℕ) : ℤ) < 2 ^ 31 := by
    calc ((n / 2 ^ d : ℕ) : ℤ) ≤ (n : ℤ) := by exact_mod_cast Nat.div_le_self _ _
    _ < 2 ^ 31 := hn
  rw [toInt32_eq_self _ (neg_pow31_le_natCast _) hle]
  push_cast
  rfl

lemma jsShl_bit (b : ℕ) (d : ℕ) (hd : d < 32) (hb : (b : ℤ) * 2 ^ d < 2 ^ 31) :
    jsShl (b : ℤ) d = ((b * 2 ^ d : ℕ) : ℤ) := by
  unfold jsShl
  rw [Nat.mod_eq_of_lt hd]
  have hbsmall : (b : ℤ) < 2 ^ 31 := by
    calc (b : ℤ) ≤ (b : ℤ) * 2 ^ d := by
          have h1 : (1 : ℤ) ≤ 2 ^ d := one_le_pow₀ (by norm_num)
          nlinarith [Int.natCast_nonneg b]
    _ < 2 ^ 31 := hb
  rw [toInt32_eq_self _ (neg_pow31_le_natCast b) hbsmall]
  have hnn : -(2 ^ 31 : ℤ) ≤ (b : ℤ) * 2 ^ d := by
    have h0 : (0 : ℤ) ≤ (b : ℤ) * 2 ^ d := by positivity
    have hneg : -(2 ^ 31 : ℤ) ≤ 0 := by norm_num
    linarith
  rw [toInt32_eq_self _ hnn hb]
  push_cast
  rfl

lemma cast_sum_int (l : List ℕ) :
    ((l.sum : ℕ) : ℤ) = (l.map (fun (m : ℕ) => (m : ℤ))).sum := by
  induction l with
  | nil => rfl
  | cons x xs ih => simp [ih]

lemma count_one_map_ite (m : ℕ) :
    ∀ l : List ℕ, m ∈ l → l.Nodup →
      (l.map (fun j => if j = m then (1 : ℕ) else 0)).count 1 = 1 := by
  have hzero : ∀ l : List ℕ, m ∉ l →
      (l.map (fun j => if j = m then (1 : ℕ) else 0)).count 1 = 0 := by
    intro l hl
    have : l.map (fun j => if j = m then (1 : ℕ) else 0) = l.map (fun _ => 0) := by
      apply List.map_congr_left
      intro a ha
      have : a ≠ m := fun h => hl (h ▸ ha)
      simp [this]
    rw [this]
    simp [List.count_replicate]
  intro l hm hnd
  induction l with
  | nil => simp at hm
  | cons a t ih =>
      rcases List.mem_cons.mp hm with h | h
      · subst h
        have hat : m ∉ t := (List.nodup_cons.mp hnd).1
        simp only [List.map_cons, if_pos rfl]
        rw [List.count_cons]
        simp [hzero t hat]
      · have hne : a ≠ m := by
          intro hEq
          exact (List.nodup_cons.mp hnd).1 (hEq ▸ h)
        simp only [List.map_cons, if_neg hne]
        rw [List.count_cons]
        simp [ih h (List.nodup_cons.mp hnd).2]

set_option maxRecDepth 100000 in
/-- C3 counterexample: inside the claim's stated domain the JS 32-bit
bitwise semantics breaks the round trip — at depth 34 the in-range input
`x = 2^32` (with `0 < x < 2^33`) is coerced by ToInt32 to 0, so it
round-trips to 0 instead of `x`; and the depth-32 zero sentinel comes back
as `1 << 31 = -2^31`, not `2^31`. -/
theorem bits_roundTrip_cex :
    bitsToInts (intsToBits [(4294967296 : ℤ)] 34) = [0] ∧
      bitsToInts (intsToBits [(0 : ℤ)] 32) = [-2147483648] := by
  constructor
  · decide
  · decide

/-- C3 (amended): under JS 32-bit bitwise semantics the round trip
`bitsToInts (intsToBits [x] d) = [x]` holds for every depth `1 ≤ d ≤ 32`
and every `0 < x < 2^(d-1)`, and the zero input reproduces the sentinel
`2^(d-1)` for every `1 ≤ d ≤ 31`; beyond these depths the 32-bit wrap of
`>>` and `<<` breaks both (the depth-32 sentinel already returns `-2^31`). -/
theorem bits_roundTrip (d : ℕ) (x : ℤ) (hd : 1 ≤ d) (hd32 : d ≤ 32)
    (hx0 : 0 < x) (hx : x < 2 ^ (d - 1)) :
    bitsToInts (intsToBits [x] d) = [x] ∧
      (d ≤ 31 → bitsToInts (intsToBits [0] d) = [2 ^ (d - 1)]) := by
  constructor
  · obtain ⟨n, rfl⟩ : ∃ n : ℕ, x = (n : ℤ) := ⟨x.toNat, (Int.toNat_of_nonneg hx0.le).symm⟩
    have hxne : (n : ℤ) ≠ 0 := hx0.ne'
    have hpow : (2 : ℤ) ^ (d - 1) ≤ 2 ^ 31 := by
      apply pow_le_pow_right₀ (by norm_num)
      omega
    have hn31 : (n : ℤ) < 2 ^ 31 := lt_of_lt_of_le hx hpow
    have hrow : (List.range d).map (fun d2 => jsAnd1 (jsShr (n : ℤ) d2)) =
        (List.range d).map (fun d2 => ((n / 2 ^ d2 % 2 : ℕ) : ℤ)) := by
      apply List.map_congr_left
      intro i hi
      have hid := List.mem_range.mp hi
      exact jsbit_eq n i hn31 (by omega)
    simp only [intsToBits, bitsToInts, List.map_cons, List.map_nil, if_neg hxne]
    rw [hrow, foldl_add_eq_sum]
    have hlen : ((List.range d).map (fun d2 => ((n / 2 ^ d2 % 2 : ℕ) : ℤ))).length = d := by
      simp
    rw [hlen]
    have hcongr : (List.range d).map
          (fun i => jsShl (((List.range d).map
            (fun d2 => ((n / 2 ^ d2 % 2 : ℕ) : ℤ))).getD i 0) i) =
        (List.range d).map (fun i => ((n / 2 ^ i % 2 * 2 ^ i : ℕ) : ℤ)) := by
      apply List.map_congr_left
      intro i hi
      have hid : i < d := List.mem_range.mp hi
      rw [getD_map_range _ _ _ hid]
      apply jsShl_bit
      · omega
      · have hnat : n / 2 ^ i % 2 * 2 ^ i ≤ n := by
          calc n / 2 ^ i % 2 * 2 ^ i ≤ n / 2 ^ i * 2 ^ i :=
                Nat.mul_le_mul_right _ (Nat.mod_le _ _)
          _ ≤ n := Nat.div_mul_le_self n (2 ^ i)
        have hle : ((n / 2 ^ i % 2 : ℕ) : ℤ) * 2 ^ i ≤ (n : ℤ) := by
          exact_mod_cast hnat
        exact lt_of_le_of_lt hle hn31
    rw [hcongr]
    have hsum : ((List.range d).map (fun i => ((n / 2 ^ i % 2 * 2 ^ i : ℕ) : ℤ))).sum =
        ((((List.range d).map (fun i => n / 2 ^ i % 2 * 2 ^ i)).sum : ℕ) : ℤ) := by
      rw [cast_sum_int, List.map_map]
      rfl
    rw [hsum, sum_low_bits]
    have hnd : n < 2 ^ d := by
      have h1 : n < 2 ^ (d - 1) := by exact_mod_cast hx
      have h2 : 2 ^ (d - 1) ≤ 2 ^ d := Nat.pow_le_pow_right (by norm_num) (by omega)
      omega
    rw [Nat.mod_eq_of_lt hnd]
  · intro hd31
    obtain ⟨k, rfl⟩ : ∃ k, d = k + 1 := ⟨d - 1, (Nat.succ_pred_eq_of_pos hd).symm⟩
    have hzrow : (List.range (k + 1)).map (fun d2 => jsAnd1 (jsShr (0 : ℤ) d2)) =
        List.replicate (k + 1) (0 : ℤ) := by
      have hz : ∀ i ∈ List.range (k + 1),
          jsAnd1 (jsShr (0 : ℤ) i) = (fun _ => (0 : ℤ)) i := by
        intro i hi
        have hik := List.mem_range.mp hi
        have := jsbit_eq 0 i (by norm_num) (by omega)
        simpa using this
      rw [List.map_congr_left hz]
      simp
    have h0 : intsToBits [(0 : ℤ)] (k + 1) = [List.replicate k (0 : ℤ) ++ [1]] := by
      simp [intsToBits, hzrow, set_one_replicate (0 : ℤ) 1 k]
    rw [h0]
    simp only [bitsToInts, List.map_cons, List.map_nil]
    rw [foldl_add_eq_sum]
    have hlen2 : (List.replicate k (0 : ℤ) ++ [1]).length = k + 1 := by simp
    rw [hlen2]
    have hsum : ((List.range (k + 1)).map
        (fun i => jsShl ((List.replicate k (0 : ℤ) ++ [1]).getD i 0) i)).sum =
          (2 : ℤ) ^ k := by
      rw [List.range_succ, List.map_append, List.sum_append]
      have hzeros : (List.range k).map
            (fun i => jsShl ((List.replicate k (0 : ℤ) ++ [1]).getD i 0) i) =
          (List.range k).map (fun _ => (0 : ℤ)) := by
        apply List.map_congr_left
        intro i hi
        have hik := List.mem_range.mp hi
        rw [getD_replicate_append_one (0 : ℤ) 1 k i hik]
        have := jsShl_bit 0 i (by omega) (by norm_num)
        simpa using this
      rw [hzeros]
      simp only [List.map_cons, List.map_nil, List.sum_cons, List.sum_nil]
      rw [getD_replicate_append_one_last (0 : ℤ) 1 k]
      have h2k : ((1 : ℕ) : ℤ) * 2 ^ k < 2 ^ 31 := by
        have hle : (2 : ℤ) ^ k ≤ 2 ^ 30 := by
          apply pow_le_pow_right₀ (by norm_num)
          omega
        push_cast
        omega
      have hk1 := jsShl_bit 1 k (by omega) h2k
      simp only [Nat.cast_one] at hk1
      rw [hk1]
      push_cast
      simp
    rw [hsum]
    norm_num

/-- C3 witness: concrete round trip at depth 4 with `x = 5`, and the zero
sentinel at depth 4 giving `2^3 = 8`. -/
theorem bits_roundTrip_witness :
    bitsToInts (intsToBits [(5 : ℤ)] 4) = [5] ∧
      bitsToInts (intsToBits [(0 : ℤ)] 4) = [2 ^ (4 - 1)] :=
  ⟨(bits_roundTrip 4 5 (by decide) (by decide) (by decide) (by decide)).1,
    (bits_roundTrip 4 5 (by decide) (by decide) (by decide) (by decide)).2 (by decide)⟩

/-- C10: for an integer outside `[0, depth)` (negative or too large),
`intsToOneHot` yields an all-zero row of width `depth` and raises no error;
inside the range, the row contains exactly one 1. -/
theorem intsToOneHot_outside (x : ℤ) (d : ℕ) :
    ((x < 0 ∨ (d : ℤ) ≤ x) → intsToOneHot [x] d = [List.replicate d 0]) ∧
      (0 ≤ x → x < (d : ℤ) → ((intsToOneHot [x] d).getD 0 []).count 1 = 1) := by
  constructor
  · intro hout
    simp only [intsToOneHot, List.map_cons, List.map_nil]
    have hrow : (List.range d).map (fun (j : ℕ) => if (j : ℤ) = x then (1 : ℕ) else 0) =
        (List.range d).map (fun _ => 0) := by
      apply List.map_congr_left
      intro j hj
      have hjx : (j : ℤ) ≠ x := by
        rcases hout with h | h
        · have h0 : (0 : ℤ) ≤ (j : ℤ) := Int.natCast_nonneg j
          omega
        · have hjd : (j : ℤ) < (d : ℤ) := by
            exact_mod_cast List.mem_range.mp hj
          omega
      simp [hjx]
    rw [hrow]
    simp
  · intro hx0 hxd
    obtain ⟨m, rfl⟩ : ∃ m : ℕ, x = (m : ℤ) := ⟨x.toNat, (Int.toNat_of_nonneg hx0).symm⟩
    have hmd : m < d := by exact_mod_cast hxd
    simp only [intsToOneHot, List.map_cons, List.map_nil, List.getD]
    have hrow : (List.range d).map (fun (j : ℕ) => if (j : ℤ) = (m : ℤ) then (1 : ℕ) else 0) =
        (List.range d).map (fun j => if j = m then (1 : ℕ) else 0) := by
      apply List.map_congr_left
      intro j _
      by_cases hjm : j = m
      · simp [hjm]
      · have : (j : ℤ) ≠ (m : ℤ) := by exact_mod_cast hjm
        simp [hjm, this]
    have := count_one_map_ite m (List.range d) (List.mem_range.mpr hmd) (List.nodup_range d)
    simpa [hrow] using this

/-- C10 witness: the out-of-range input `-2` at depth 3 produces the all-zero
row, and the in-range input `1` produces a row with exactly one 1. -/
theorem intsToOneHot_outside_witness :
    intsToOneHot [(-2 : ℤ)] 3 = [[0, 0, 0]] ∧
      ((intsToOneHot [(1 : ℤ)] 3).getD 0 []).count 1 = 1 :=
  ⟨by simpa using (intsToOneHot_outside (-2) 3).1 (Or.inl (by decide)),
    (intsToOneHot_outside 1 3).2 (by decide) (by decide)⟩

/-! ### NADE refinement -/

lemma map_getD_rows (g : ℚ → ℚ) (a : Mat) (b : ℕ) :
    (a.map (fun r => r.map g)).getD b [] = (a.getD b []).map g := by
  by_cases hb : b < a.length
  · rw [List.getD_eq_getElem _ _ (by simpa using hb), List.getD_eq_getElem _ _ hb,
      List.getElem_map]
  · rw [List.getD_eq_default, List.getD_eq_default]
    · rfl
    · exact le_of_not_lt hb
    · simpa using le_of_not_lt hb

lemma nade_samplesI_eq (m : Nade) (sg : ℚ → ℚ) (decBias : Mat) (batchSize : ℕ)
    (a : Mat) (i : ℕ) :
    ((List.range batchSize).map
        (fun b => (decBias.getD b []).getD i 0 +
          dot ((a.map (fun row => row.map sg)).getD b []) (m.decWeightsT.getD i []))).map
      (fun v => if (1 : ℚ) / 2 ≤ sg v then (1 : ℚ) else 0) =
    nadeCondCol m sg decBias batchSize a i := by
  unfold nadeCondCol
  rw [List.map_map]
  apply List.map_congr_left
  intro b _
  simp only [Function.comp_apply]
  rw [map_getD_rows]

lemma sampleStep_eq (m : Nade) (sg : ℚ → ℚ) (decBias : Mat) (batchSize : ℕ)
    (a : Mat) (cols : List (List ℚ)) (i : ℕ) :
    m.sampleStep sg decBias batchSize (a, cols) i =
      ((if i < m.numDims - 1 then
          (List.range batchSize).map
            (fun b => vadd (a.getD b [])
              (smul ((nadeCondCol m sg decBias batchSize a i).getD b 0)
                (m.encWeights.getD i [])))
        else a),
        cols ++ [nadeCondCol m sg decBias batchSize a i]) := by
  simp only [Nade.sampleStep]
  rw [nade_samplesI_eq]

lemma nade_foldl_eq (m : Nade) (sg : ℚ → ℚ) (encBias decBias : Mat) :
    ∀ k, k ≤ m.numDims →
      (List.range k).foldl (m.sampleStep sg decBias encBias.length) (encBias, []) =
        (nadeSpecA m sg encBias decBias k,
          (List.range k).map (fun i =>
            nadeCondCol m sg decBias encBias.length (nadeSpecA m sg encBias decBias i) i)) := by
  intro k
  induction k with
  | zero => intro _; simp [nadeSpecA]
  | succ k ih =>
      intro hk
      rw [List.range_succ, List.foldl_append, ih (Nat.le_of_succ_le hk),
        List.foldl_cons, List.foldl_nil, sampleStep_eq]
      have hcond : (k < m.numDims - 1) ↔ (k ≠ m.numDims - 1) := by omega
      rw [Prod.mk.injEq]
      constructor
      · conv_rhs => rw [nadeSpecA]
        rw [if_congr hcond rfl rfl]
      · rw [List.map_append]
        rfl

/-- C1: `Nade.sample` computes exactly the spec §4.4 recurrence — the
accumulator starts as a clone of `encBias`, for each dimension `i` in order
the conditional logit is `decBias[:, i]` plus the dot of `h = sigmoid(a)`
with the i-th row of the transposed decoder weights, the sample is the
deterministic 0.5-threshold of its sigmoid, the accumulator gains
`outerProduct(sample_i, encRow_i)` if and only if `i` is not the last
dimension, and the per-dimension samples are stacked along the feature axis
into `[batch, numDims]`. -/
theorem nade_sample_correct (m : Nade) (sg : ℚ → ℚ) (encBias decBias : Mat) :
    Nade.sample m sg encBias decBias = nadeSampleSpec m sg encBias decBias := by
  simp only [Nade.sample, nadeSampleSpec]
  rw [nade_foldl_eq m sg encBias decBias m.numDims le_rfl]
  simp [List.map_map]

/-! ### Encoder refinement -/

lemma runLstm_forward (sg th : ℚ → ℚ) (inputs : List Mat) (lstmVars : LayerVars) :
    runLstm sg th inputs lstmVars false =
      lstmOverSlices sg th lstmVars inputs.length (timeSlices inputs) := by
  simp only [runLstm, lstmOverSlices, timeSlices, List.foldl_map]
  rfl

lemma runLstm_backward (sg th : ℚ → ℚ) (inputs : List Mat) (lstmVars : LayerVars) :
    runLstm sg th inputs lstmVars true =
      lstmOverSlices sg th lstmVars inputs.length (timeSlices inputs).reverse := by
  simp only [runLstm, lstmOverSlices, timeSlices]
  rw [← List.map_reverse, List.range_eq_range', List.reverse_range']
  simp only [Nat.zero_add, List.foldl_map, if_true]
  rw [← List.range_eq_range']

/-- C7: `Encoder.encode` runs the recurrent cell forward over time steps
`0..T-1` with the forward-cell weights and separately backward over
`T-1..0` with the backward-cell weights, each starting from zero states of
width `bias.length / 4`, keeps only the final hiddenState of each
direction, concatenates `[forwardFinalHidden, backwardFinalHidden]` along
the feature axis, and returns its `muProjection` affine transform. -/
theorem encoder_encode_correct (e : Encoder) (sg th : ℚ → ℚ) (sequence : List Mat) :
    Encoder.encode e sg th sequence = encodeSpec e sg th sequence := by
  simp only [Encoder.encode, encodeSpec, runLstm_forward, runLstm_backward]

/-- C9: `Encoder.encode` is deterministic — identical inputs under the same
weights give identical latent means; no randomness source occurs anywhere in
the encoding computation. -/
theorem encoder_deterministic (e : Encoder) (sg th : ℚ → ℚ) (s₁ s₂ : List Mat)
    (hEq : s₁ = s₂) : Encoder.encode e sg th s₁ = Encoder.encode e sg th s₂ := by
  rw [hEq]

/-- C9 witness: two calls of `encode` on the same concrete one-step batch
agree. -/
theorem encoder_deterministic_witness :
    Encoder.encode ⟨⟨[[1]], [1, 2, 3, 4]⟩, ⟨[[1]], [1, 2, 3, 4]⟩, ⟨[[2], [2]], [0]⟩⟩ id id
        [[[1], [1]]] =
      Encoder.encode ⟨⟨[[1]], [1, 2, 3, 4]⟩, ⟨[[1]], [1, 2, 3, 4]⟩, ⟨[[2], [2]], [0]⟩⟩ id id
        [[[1], [1]]] :=
  encoder_deterministic _ id id _ _ rfl

/-! ### Decoder shape lemmas -/

lemma dense_length (vars : LayerVars) (inputs : Mat) :
    (dense vars inputs).length = inputs.length := by
  simp [dense]

lemma dense_row_width (vars : LayerVars) (inputs : Mat) :
    ∀ row ∈ dense vars inputs, row.length = vars.bias.length := by
  intro row hrow
  simp only [dense, List.mem_map] at hrow
  obtain ⟨r, _, rfl⟩ := hrow
  simp

lemma basicLSTMCell_rows (sg th : ℚ → ℚ) (fb : ℚ) (kernel : Mat) (bias : List ℚ)
    (data c h : Mat) (n : ℕ) (hd : data.length = n) (hc : c.length = n)
    (hh : h.length = n) :
    (basicLSTMCell sg th fb kernel bias data c h).1.length = n ∧
      (basicLSTMCell sg th fb kernel bias data c h).2.length = n := by
  simp [basicLSTMCell, dense, concatRows, hd, hc, hh]

lemma zipStates_length : ∀ (cells : List LayerVars) (c h : List Mat),
    c.length = cells.length → h.length = cells.length →
    (zipStates cells c h).length = cells.length := by
  intro cells
  induction cells with
  | nil => intro c h _ _; cases c <;> cases h <;> rfl
  | cons lv rest ih =>
      intro c h hc hh
      cases c with
      | nil => simp at hc
      | cons ci cs =>
          cases h with
          | nil => simp at hh
          | cons hi hs =>
              simp [zipStates, ih cs hs (by simpa using hc) (by simpa using hh)]

lemma zipStates_mem : ∀ (cells : List LayerVars) (c h : List Mat)
    (t : LayerVars × Mat × Mat), t ∈ zipStates cells c h → t.2.1 ∈ c ∧ t.2.2 ∈ h := by
  intro cells
  induction cells with
  | nil => intro c h t ht; cases c <;> cases h <;> simp [zipStates] at ht
  | cons lv rest ih =>
      intro c h t ht
      cases c with
      | nil => simp [zipStates] at ht
      | cons ci cs =>
          cases h with
          | nil => simp [zipStates] at ht
          | cons hi hs =>
              rcases List.mem_cons.mp ht with hEq | hmem
              · subst hEq
                exact ⟨List.mem_cons_self _ _, List.mem_cons_self _ _⟩
              · have := ih cs hs t hmem
                exact ⟨List.mem_cons_of_mem _ this.1, List.mem_cons_of_mem _ this.2⟩

lemma multiRNNCell_rows (sg th : ℚ → ℚ) (fb : ℚ) (n : ℕ) :
    ∀ (layers : List (LayerVars × Mat × Mat)) (input : Mat),
      input.length = n →
      (∀ t ∈ layers, t.2.1.length = n ∧ t.2.2.length = n) →
      (multiRNNCell sg th fb layers input).1.length = layers.length ∧
        (multiRNNCell sg th fb layers input).2.length = layers.length ∧
        (∀ mx ∈ (multiRNNCell sg th fb layers input).1, mx.length = n) ∧
        (∀ mx ∈ (multiRNNCell sg th fb layers input).2, mx.length = n) := by
  intro layers
  induction layers with
  | nil => intro input _ _; simp [multiRNNCell]
  | cons t rest ih =>
      intro input hi hts
      obtain ⟨lv, ci, hi'⟩ := t
      have hhead := hts (lv, ci, hi') (List.mem_cons_self _ _)
      have hcell := basicLSTMCell_rows sg th fb lv.kernel lv.bias input ci hi' n hi
        hhead.1 hhead.2
      have hrest := ih (basicLSTMCell sg th fb lv.kernel lv.bias input ci hi').2
        hcell.2 (fun t' ht' => hts t' (List.mem_cons_of_mem _ ht'))
      simp only [multiRNNCell]
      refine ⟨by simp [hrest.1], by simp [hrest.2.1], ?_, ?_⟩
      · intro mx hmx
        rcases List.mem_cons.mp hmx with hEq | hmem
        · subst hEq; exact hcell.1
        · exact hrest.2.2.1 mx hmem
      · intro mx hmx
        rcases List.mem_cons.mp hmx with hEq | hmem
        · subst hEq; exact hcell.2
        · exact hrest.2.2.2 mx hmem

lemma initStatesSplit_shape : ∀ (cells : List LayerVars) (off : ℕ) (st : Mat),
    (initStatesSplit cells off st).1.length = cells.length ∧
      (initStatesSplit cells off st).2.length = cells.length ∧
      (∀ mx ∈ (initStatesSplit cells off st).1, mx.length = st.length) ∧
      (∀ mx ∈ (initStatesSplit cells off st).2, mx.length = st.length) := by
  intro cells
  induction cells with
  | nil => intro off st; simp [initStatesSplit]
  | cons lv rest ih =>
      intro off st
      have hr := ih (off + 2 * (lv.bias.length / 4)) st
      simp only [initStatesSplit]
      refine ⟨by simp [hr.1], by simp [hr.2.1], ?_, ?_⟩
      · intro mx hmx
        rcases List.mem_cons.mp hmx with hEq | hmem
        · subst hEq; simp
        · exact hr.2.2.1 mx hmem
      · intro mx hmx
        rcases List.mem_cons.mp hmx with hEq | hmem
        · subst hEq; simp
        · exact hr.2.2.2 mx hmem

lemma argMaxGo_bound : ∀ (l : List ℚ) (i best : ℕ) (bv : ℚ),
    argMaxGo l i best bv = best ∨
      ∃ k, k < l.length ∧ argMaxGo l i best bv = i + k := by
  intro l
  induction l with
  | nil => intro i best bv; left; rfl
  | cons v rest ih =>
      intro i best bv
      simp only [argMaxGo]
      by_cases hlt : bv < v
      · rw [if_pos hlt]
        rcases ih (i + 1) i v with h | ⟨k, hk, hEq⟩
        · right; exact ⟨0, by simp, by simpa using h⟩
        · right
          refine ⟨k + 1, ?_, ?_⟩
          · simpa using Nat.succ_lt_succ hk
          · rw [hEq]; omega
      · rw [if_neg hlt]
        rcases ih (i + 1) best bv with h | ⟨k, hk, hEq⟩
        · left; exact h
        · right
          refine ⟨k + 1, ?_, ?_⟩
          · simpa using Nat.succ_lt_succ hk
          · rw [hEq]; omega

lemma argMax_lt (row : List ℚ) (h : row ≠ []) : argMax row < row.length := by
  unfold argMax
  rcases argMaxGo_bound row 0 0 (row.headD 0) with hEq | ⟨k, hk, hEq⟩
  · rw [hEq]; exact List.length_pos.mpr h
  · rw [hEq]; simpa using hk

lemma nadeCondCol_getD (m : Nade) (sg : ℚ → ℚ) (decBias : Mat) (batchSize : ℕ)
    (a : Mat) (i b : ℕ) :
    (nadeCondCol m sg decBias batchSize a i).getD b 0 = 0 ∨
      (nadeCondCol m sg decBias batchSize a i).getD b 0 = 1 := by
  unfold nadeCondCol
  by_cases hb : b < batchSize
  · rw [getD_map_range _ _ _ hb]
    split
    · right; rfl
    · left; rfl
  · left
    apply List.getD_eq_default
    simpa using le_of_not_lt hb

lemma nade_sample_shape (m : Nade) (sg : ℚ → ℚ) (encBias decBias : Mat) :
    (m.sample sg encBias decBias).length = encBias.length ∧
      ∀ row ∈ m.sample sg encBias decBias,
        row.length = m.numDims ∧ ∀ v ∈ row, v = 0 ∨ v = 1 := by
  simp only [Nade.sample]
  rw [nade_foldl_eq m sg encBias decBias m.numDims le_rfl]
  constructor
  · simp
  · intro row hrow
    simp only [List.mem_map, List.mem_range] at hrow
    obtain ⟨b, hb, rfl⟩ := hrow
    constructor
    · simp
    · intro v hv
      simp only [List.map_map, List.mem_map, List.mem_range] at hv
      obtain ⟨i, hi, rfl⟩ := hv
      exact nadeCondCol_getD m sg decBias encBias.length
        (nadeSpecA m sg encBias decBias i) i b

lemma decodeStepStates_rows (d : Decoder) (sg th : ℚ → ℚ) (z : Mat)
    (c h : List Mat) (ni : Mat)
    (hcl : c.length = d.lstmCellVars.length) (hhl : h.length = d.lstmCellVars.length)
    (hcm : ∀ mx ∈ c, mx.length = z.length) (hhm : ∀ mx ∈ h, mx.length = z.length)
    (hnil : ni.length = z.length) :
    (decodeStepStates d sg th z c h ni).1.length = d.lstmCellVars.length ∧
      (decodeStepStates d sg th z c h ni).2.length = d.lstmCellVars.length ∧
      (∀ mx ∈ (decodeStepStates d sg th z c h ni).1, mx.length = z.length) ∧
      (∀ mx ∈ (decodeStepStates d sg th z c h ni).2, mx.length = z.length) := by
  have hzip_len := zipStates_length d.lstmCellVars c h hcl hhl
  have hzip_mem : ∀ t ∈ zipStates d.lstmCellVars c h,
      t.2.1.length = z.length ∧ t.2.2.length = z.length := by
    intro t ht
    have := zipStates_mem d.lstmCellVars c h t ht
    exact ⟨hcm _ this.1, hhm _ this.2⟩
  have hinput : (concatRows ni z).length = z.length := by
    simp [concatRows, hnil]
  have hmrc := multiRNNCell_rows sg th 1 z.length
    (zipStates d.lstmCellVars c h) (concatRows ni z) hinput hzip_mem
  unfold decodeStepStates
  exact ⟨by rw [hmrc.1, hzip_len], by rw [hmrc.2.1, hzip_len],
    hmrc.2.2.1, hmrc.2.2.2⟩

lemma decodeLogits_rows (d : Decoder) (sg th : ℚ → ℚ) (z : Mat)
    (c h : List Mat) (ni : Mat) (hlay : d.lstmCellVars ≠ [])
    (hcl : c.length = d.lstmCellVars.length) (hhl : h.length = d.lstmCellVars.length)
    (hcm : ∀ mx ∈ c, mx.length = z.length) (hhm : ∀ mx ∈ h, mx.length = z.length)
    (hnil : ni.length = z.length) :
    (decodeLogits d sg th z c h ni).length = z.length ∧
      ∀ row ∈ decodeLogits d sg th z c h ni,
        row.length = d.outputProjectVars.bias.length := by
  have hss := decodeStepStates_rows d sg th z c h ni hcl hhl hcm hhm hnil
  have hne : (decodeStepStates d sg th z c h ni).2 ≠ [] := by
    apply List.length_pos.mp
    rw [hss.2.1]
    exact List.length_pos.mpr hlay
  have hmem : (decodeStepStates d sg th z c h ni).2.getLastD [] ∈
      (decodeStepStates d sg th z c h ni).2 := by
    rw [List.getLastD_eq_getLast?, List.getLast?_eq_getLast _ hne]
    exact List.getLast_mem hne
  have hlastlen := hss.2.2.2 _ hmem
  constructor
  · unfold decodeLogits
    rw [dense_length, hlastlen]
  · unfold decodeLogits
    exact dense_row_width _ _

lemma decodeLoop_length (d : Decoder) (sg th : ℚ → ℚ) (z : Mat) :
    ∀ (steps : ℕ) (c h : List Mat) (ni : Mat),
      (decodeLoop d sg th z c h ni steps).length = steps := by
  intro steps
  induction steps with
  | zero => intro c h ni; rfl
  | succ k ih =>
      intro c h ni
      simp only [decodeLoop]
      cases hn : d.nade with
      | none => simp [ih]
      | some m => simp [ih]

lemma decodeLoop_nade (d : Decoder) (sg th : ℚ → ℚ) (z : Mat) (m : Nade)
    (hn : d.nade = some m) :
    ∀ (steps : ℕ) (c h : List Mat) (ni : Mat),
      ∀ s ∈ decodeLoop d sg th z c h ni steps,
        s.length = z.length ∧
          ∀ srow ∈ s, srow.length = m.numDims ∧ ∀ v ∈ srow, v = 0 ∨ v = 1 := by
  intro steps
  induction steps with
  | zero => intro c h ni s hs; simp [decodeLoop] at hs
  | succ k ih =>
      intro c h ni s hs
      simp only [decodeLoop, hn] at hs
      rcases List.mem_cons.mp hs with rfl | hmem
      · constructor
        · rw [(nade_sample_shape m sg _ _).1]
          simp
        · intro srow hsrow
          exact (nade_sample_shape m sg _ _).2 srow hsrow
      · exact ih _ _ _ s hmem

lemma decodeLoop_argmax (d : Decoder) (sg th : ℚ → ℚ) (z : Mat)
    (hn : d.nade = none) (hw : 0 < d.outputProjectVars.bias.length)
    (hlay : d.lstmCellVars ≠ []) :
    ∀ (steps : ℕ) (c h : List Mat) (ni : Mat),
      c.length = d.lstmCellVars.length → h.length = d.lstmCellVars.length →
      (∀ mx ∈ c, mx.length = z.length) → (∀ mx ∈ h, mx.length = z.length) →
      ni.length = z.length →
      ∀ s ∈ decodeLoop d sg th z c h ni steps,
        s.length = z.length ∧
          ∀ srow ∈ s, ∃ k, k < d.outputDims ∧ srow = [(k : ℚ)] := by
  intro steps
  induction steps with
  | zero => intro c h ni _ _ _ _ _ s hs; simp [decodeLoop] at hs
  | succ k2 ih =>
      intro c h ni hcl hhl hcm hhm hnil s hs
      have hss := decodeStepStates_rows d sg th z c h ni hcl hhl hcm hhm hnil
      have hlg := decodeLogits_rows d sg th z c h ni hlay hcl hhl hcm hhm hnil
      simp only [decodeLoop, hn] at hs
      rcases List.mem_cons.mp hs with rfl | hmem
      · constructor
        · simp [hlg.1]
        · intro srow hsrow
          simp only [List.map_map, List.mem_map, Function.comp_apply] at hsrow
          obtain ⟨row, hrow, rfl⟩ := hsrow
          refine ⟨argMax row, ?_, rfl⟩
          have hwr := hlg.2 row hrow
          have hne : row ≠ [] := by
            intro hEq
            rw [hEq] at hwr
            simp at hwr
            omega
          have hb := argMax_lt row hne
          rw [hwr] at hb
          simpa [Decoder.outputDims, hn] using hb
      · refine ih _ _ _ hss.1 hss.2.1 hss.2.2.1 hss.2.2.2 ?_ s hmem
        simp [hlg.1]

/-- C2 (amended): `Decoder.decode` with `length = 0` returns an empty time
axis for every batch row and no error; with `length = L` it returns exactly
`L` time steps per batch row.  With the argmax head (no NADE) each recorded
step is a width-1 column holding a scalar index in `[0, outputDims)` (so
the stacked result is `[batch, L, 1]`, not `[batch, L, outputDims]`); with
the NADE head each step is a binary {0,1} vector of width `numDims`
(`[batch, L, numDims]`). -/
theorem decoder_decode_shape (d : Decoder) (sg th : ℚ → ℚ) (z : Mat) (L : ℕ)
    (hw : d.nade = none → 0 < d.outputProjectVars.bias.length)
    (hlay : d.lstmCellVars ≠ []) :
    ((d.decode sg th z 0).length = z.length ∧
      ∀ row ∈ d.decode sg th z 0, row = []) ∧
    ((d.decode sg th z L).length = z.length ∧
      ∀ row ∈ d.decode sg th z L, row.length = L) ∧
    (d.nade = none →
      ∀ row ∈ d.decode sg th z L, ∀ step ∈ row,
        ∃ k, k < d.outputDims ∧ step = [(k : ℚ)]) ∧
    (∀ m, d.nade = some m →
      ∀ row ∈ d.decode sg th z L, ∀ step ∈ row,
        step.length = m.numDims ∧ ∀ v ∈ step, v = 0 ∨ v = 1) := by
  refine ⟨⟨?_, ?_⟩, ⟨?_, ?_⟩, ?_, ?_⟩
  · simp [Decoder.decode]
  · intro row hrow
    simp only [Decoder.decode, decodeLoop, List.mem_map, List.mem_range] at hrow
    obtain ⟨b, _, rfl⟩ := hrow
    rfl
  · simp [Decoder.decode]
  · intro row hrow
    simp only [Decoder.decode, List.mem_map, List.mem_range] at hrow
    obtain ⟨b, _, rfl⟩ := hrow
    simp [decodeLoop_length]
  · intro hn row hrow step hstep
    simp only [Decoder.decode, List.mem_map, List.mem_range] at hrow
    obtain ⟨b, hb, rfl⟩ := hrow
    simp only [List.mem_map] at hstep
    obtain ⟨s, hsmem, rfl⟩ := hstep
    have hinit := initStatesSplit_shape d.lstmCellVars 0
      ((dense d.zToInitStateVars z).map (fun r => r.map th))
    have hstlen : ((dense d.zToInitStateVars z).map (fun r => r.map th)).length = z.length := by
      rw [List.length_map, dense_length]
    have hsfact := decodeLoop_argmax d sg th z hn (hw hn) hlay L _ _ _
      hinit.1 hinit.2.1
      (fun mx hmx => by rw [hinit.2.2.1 mx hmx, hstlen])
      (fun mx hmx => by rw [hinit.2.2.2 mx hmx, hstlen])
      (by simp [zerosM]) s hsmem
    have hbs : b < s.length := by rw [hsfact.1]; exact hb
    have hsrow : s.getD b [] ∈ s := by
      rw [List.getD_eq_getElem _ _ hbs]
      exact List.getElem_mem hbs
    exact hsfact.2 _ hsrow
  · intro m hn row hrow step hstep
    simp only [Decoder.decode, List.mem_map, List.mem_range] at hrow
    obtain ⟨b, hb, rfl⟩ := hrow
    simp only [List.mem_map] at hstep
    obtain ⟨s, hsmem, rfl⟩ := hstep
    have hsfact := decodeLoop_nade d sg th z m hn L _ _ _ s hsmem
    have hbs : b < s.length := by rw [hsfact.1]; exact hb
    have hsrow : s.getD b [] ∈ s := by
      rw [List.getD_eq_getElem _ _ hbs]
      exact List.getElem_mem hbs
    exact hsfact.2 _ hsrow

/-- C2 counterexample: on the argmax-head decoder `tinyArgmaxDecoder` with
`outputDims = 2`, decoding one step records a width-1 column per batch row,
not a width-`outputDims` vector — the claimed `[batch, L, outputDims]`
shape fails for the argmax head. -/
theorem decoder_decode_shape_cex :
    (((Decoder.decode tinyArgmaxDecoder id id [[0]] 1).getD 0 []).getD 0 []).length = 1 ∧
      Decoder.outputDims tinyArgmaxDecoder = 2 := by
  constructor
  · rfl
  · rfl

/-- C2 witness: on the concrete decoder, `decode` at length 0 has one
(empty) batch row, and at length 2 each batch row holds exactly 2 steps. -/
theorem decoder_decode_shape_witness :
    (Decoder.decode tinyArgmaxDecoder id id [[0]] 0).length = 1 ∧
      ∀ row ∈ Decoder.decode tinyArgmaxDecoder id id [[0]] 2, row.length = 2 :=
  ⟨(decoder_decode_shape tinyArgmaxDecoder id id [[0]] 2
      (fun _ => by decide) (List.cons_ne_nil _ _)).1.1,
    (decoder_decode_shape tinyArgmaxDecoder id id [[0]] 2
      (fun _ => by decide) (List.cons_ne_nil _ _)).2.1.2⟩

/-! ### Interpolation and initialization -/

/-- C5: `interpolate` on a batch whose size is neither 2 nor 4 fails with
the invalid-argument error before any encoding or tensor work — the same
error for every weight assignment (`mv` is arbitrary) — while batch sizes 2
and 4 raise no precondition error. -/
theorem interpolate_batch_size (mv : MusicVAE) (sg th : ℚ → ℚ)
    (sequences : List Mat) (numSteps : ℕ) :
    (sequences.length ≠ 2 → sequences.length ≠ 4 →
      MusicVAE.interpolate mv sg th sequences numSteps =
        Except.error "Invalid number of input sequences. Requires length 2, or 4") ∧
    (sequences.length = 2 ∨ sequences.length = 4 →
      ∃ out, MusicVAE.interpolate mv sg th sequences numSteps = Except.ok out) := by
  constructor
  · intro hr2 hr4
    unfold MusicVAE.interpolate
    rw [if_pos ⟨hr2, hr4⟩]
  · intro hok
    unfold MusicVAE.interpolate
    have hcond : ¬(sequences.length ≠ 2 ∧ sequences.length ≠ 4) := by
      rcases hok with h | h <;> simp [h]
    rw [if_neg hcond]
    exact ⟨_, rfl⟩

/-- C5 witness: a 3-sequence batch is rejected with the invalid-argument
error, a 2-sequence batch yields a successful result. -/
theorem interpolate_batch_size_witness :
    MusicVAE.interpolate tinyMusicVAE id id [[[0]], [[0]], [[0]]] 2 =
      Except.error "Invalid number of input sequences. Requires length 2, or 4" ∧
    ∃ out, MusicVAE.interpolate tinyMusicVAE id id [[[0]], [[0]]] 2 = Except.ok out :=
  ⟨(interpolate_batch_size tinyMusicVAE id id [[[0]], [[0]], [[0]]] 2).1
      (by decide) (by decide),
    (interpolate_batch_size tinyMusicVAE id id [[[0]], [[0]]] 2).2 (Or.inl rfl)⟩

lemma lookupVar_isSome (vars : VarStore) (name : String) :
    (lookupVar vars name).isSome = containsVar vars name := by
  unfold lookupVar containsVar
  cases h : vars.find? (fun p => p.1 == name) <;> simp [h]

/-- C8 counterexample: a store holding every tensor the constructors
dereference but missing the required weight name `encoder/mu/kernel` —
`initialize` still resolves and `isInitialized` becomes true, because the
source binds `vars['encoder/mu/kernel']` without ever reading it at load
time; so absence of a required (non-NADE) weight name is not, in general, a
hard initialization error. -/
theorem initialize_missing_required_cex :
    lookupVar storeMissingMuKernel "encoder/mu/kernel" = none ∧
      isInitializedAfter (initializeVars storeMissingMuKernel) = true := by
  constructor
  · rfl
  · rfl

/-- C8 (amended): the NADE head is selected exactly when
`decoder/nade/w_enc` is present, decided once at load time as a function of
the store, and NADE-name absence itself raises no error; but a missing
required name is a hard initialization error (a constructor TypeError,
leaving `isInitialized` false) exactly when the constructors dereference
it — `encoder/mu/bias`, `decoder/z_to_initial_state/kernel`,
`decoder/output_projection/bias` when no NADE head is configured, and
`decoder/nade/w_dec_t` when `w_enc` is present — while any other required
name (such as `encoder/mu/kernel`) is bound silently and `initialize`
completes despite its absence. -/
theorem initialize_head_selection (vars : VarStore) :
    (∀ st, initializeVars vars = Except.ok st →
      isInitialized st = true ∧
        ∃ dec, st.decoder = some dec ∧
          dec.nade.isSome = containsVar vars "decoder/nade/w_enc") ∧
    ((initializeVars vars).isOk = true ↔
      (containsVar vars "decoder/nade/w_enc" = true →
          (lookupVar vars "decoder/nade/w_dec_t").isSome = true) ∧
        (lookupVar vars "encoder/mu/bias").isSome = true ∧
        (lookupVar vars "decoder/z_to_initial_state/kernel").isSome = true ∧
        (containsVar vars "decoder/nade/w_enc" = false →
          (lookupVar vars "decoder/output_projection/bias").isSome = true)) ∧
    (∀ e, initializeVars vars = Except.error e →
      isInitializedAfter (initializeVars vars) = false) := by
  cases hcw : containsVar vars "decoder/nade/w_enc" with
  | true =>
      have hwe : (lookupVar vars "decoder/nade/w_enc").isSome = true := by
        rw [lookupVar_isSome]
        exact hcw
      obtain ⟨we, hwe2⟩ := Option.isSome_iff_exists.mp hwe
      cases hwd : lookupVar vars "decoder/nade/w_dec_t" with
      | none =>
          refine ⟨?_, ?_, ?_⟩
          · intro st hst
            simp [initializeVars, nadeConstruct, Except.isOk, Except.toBool, hcw, hwe2, hwd] at hst
          · simp [initializeVars, nadeConstruct, Except.isOk, Except.toBool, hcw, hwe2, hwd]
          · intro e _
            simp [initializeVars, isInitializedAfter, nadeConstruct, hcw, hwe2, hwd]
      | some wd =>
          cases hmu : lookupVar vars "encoder/mu/bias" with
          | none =>
              refine ⟨?_, ?_, ?_⟩
              · intro st hst
                simp [initializeVars, nadeConstruct, Except.isOk, Except.toBool, hcw, hwe2, hwd, hmu] at hst
              · simp [initializeVars, nadeConstruct, Except.isOk, Except.toBool, hcw, hwe2, hwd, hmu]
              · intro e _
                simp [initializeVars, isInitializedAfter, nadeConstruct,
                  hcw, hwe2, hwd, hmu]
          | some mu =>
              cases hzk : lookupVar vars "decoder/z_to_initial_state/kernel" with
              | none =>
                  refine ⟨?_, ?_, ?_⟩
                  · intro st hst
                    simp [initializeVars, nadeConstruct, Except.isOk, Except.toBool, hcw, hwe2, hwd, hmu, hzk] at hst
                  · simp [initializeVars, nadeConstruct, Except.isOk, Except.toBool, hcw, hwe2, hwd, hmu, hzk]
                  · intro e _
                    simp [initializeVars, isInitializedAfter, nadeConstruct,
                      hcw, hwe2, hwd, hmu, hzk]
              | some zk =>
                  refine ⟨?_, ?_, ?_⟩
                  · intro st hst
                    simp only [initializeVars, nadeConstruct, hcw, if_true,
                      hwe2, hwd, hmu, hzk, Except.ok.injEq] at hst
                    subst hst
                    exact ⟨rfl, ⟨_, rfl, by simp⟩⟩
                  · simp [initializeVars, nadeConstruct, Except.isOk, Except.toBool, hcw, hwe2, hwd, hmu, hzk]
                  · intro e he
                    simp [initializeVars, nadeConstruct, Except.isOk, Except.toBool, hcw, hwe2, hwd, hmu, hzk] at he
  | false =>
      cases hmu : lookupVar vars "encoder/mu/bias" with
      | none =>
          refine ⟨?_, ?_, ?_⟩
          · intro st hst
            simp [initializeVars, nadeConstruct, Except.isOk, Except.toBool, hcw, hmu] at hst
          · simp [initializeVars, nadeConstruct, Except.isOk, Except.toBool, hcw, hmu]
          · intro e _
            simp [initializeVars, isInitializedAfter, nadeConstruct, hcw, hmu]
      | some mu =>
          cases hzk : lookupVar vars "decoder/z_to_initial_state/kernel" with
          | none =>
              refine ⟨?_, ?_, ?_⟩
              · intro st hst
                simp [initializeVars, nadeConstruct, Except.isOk, Except.toBool, hcw, hmu, hzk] at hst
              · simp [initializeVars, nadeConstruct, Except.isOk, Except.toBool, hcw, hmu, hzk]
              · intro e _
                simp [initializeVars, isInitializedAfter, nadeConstruct, hcw, hmu, hzk]
          | some zk =>
              cases hob : lookupVar vars "decoder/output_projection/bias" with
              | none =>
                  refine ⟨?_, ?_, ?_⟩
                  · intro st hst
                    simp [initializeVars, nadeConstruct, Except.isOk, Except.toBool, hcw, hmu, hzk, hob] at hst
                  · simp [initializeVars, nadeConstruct, Except.isOk, Except.toBool, hcw, hmu, hzk, hob]
                  · intro e _
                    simp [initializeVars, isInitializedAfter, nadeConstruct,
                      hcw, hmu, hzk, hob]
              | some ob =>
                  refine ⟨?_, ?_, ?_⟩
                  · intro st hst
                    simp only [initializeVars, nadeConstruct, hcw, Bool.false_eq_true,
                      if_false, hmu, hzk, hob, Except.ok.injEq] at hst
                    subst hst
                    exact ⟨rfl, ⟨_, rfl, by simp⟩⟩
                  · simp [initializeVars, nadeConstruct, Except.isOk, Except.toBool, hcw, hmu, hzk, hob]
                  · intro e he
                    simp [initializeVars, nadeConstruct, Except.isOk, Except.toBool, hcw, hmu, hzk, hob] at he

/-- C8 witness: on the concrete store missing only `encoder/mu/kernel`,
`initialize` resolves (its result is ok), by the amended
characterization with each dereferenced-name condition checked concretely. -/
theorem initialize_head_selection_witness :
    (initializeVars storeMissingMuKernel).isOk = true :=
  (initialize_head_selection storeMissingMuKernel).2.1.mpr
    ⟨by decide, by decide, by decide, by decide⟩

lemma vadd_comm (xs ys : List ℚ) : vadd xs ys = vadd ys xs := by
  unfold vadd
  exact List.zipWith_comm_of_comm _ (fun a b => add_comm a b) xs ys

lemma vadd_smul_zero (xs ys : List ℚ) (h : ys.length = xs.length) :
    vadd xs (smul 0 ys) = xs := by
  induction xs generalizing ys with
  | nil => simp [vadd]
  | cons x xs ih =>
      cases ys with
      | nil => simp at h
      | cons y ys2 =>
          have htail := ih ys2 (by simpa using h)
          show (x + 0 * y) :: vadd xs (smul 0 ys2) = x :: xs
          rw [htail, zero_mul, add_zero]

lemma vadd_smul_one (xs ys : List ℚ) (h : ys.length = xs.length) :
    vadd xs (smul 1 (vsub ys xs)) = ys := by
  induction xs generalizing ys with
  | nil =>
      have : ys = [] := List.length_eq_zero.mp (by simpa using h)
      subst this
      rfl
  | cons x xs ih =>
      cases ys with
      | nil => simp at h
      | cons y ys2 =>
          have htail := ih ys2 (by simpa using h)
          show (x + 1 * (y - x)) :: vadd xs (smul 1 (vsub ys2 xs)) = y :: ys2
          have hhead : x + 1 * (y - x) = y := by ring
          rw [htail, hhead]

/-- C6: for `N = 2` and `numSteps ≥ 2`, the interpolated latent at ramp
index `i` equals `z0 + t_i * (z1 - z0)` with `t_i = i/(numSteps-1)`; in
particular the first output point equals `z0` exactly and the last equals
`z1` exactly. -/
theorem interpolate_linear (z : Mat) (n : ℕ) (hn : 2 ≤ n)
    (hlen : (z.getD 1 []).length = (z.getD 0 []).length) :
    (∀ i, i < n → (interpolateZs2 z n).getD i [] =
      vadd (z.getD 0 [])
        (smul ((i : ℚ) / ((n : ℚ) - 1)) (vsub (z.getD 1 []) (z.getD 0 [])))) ∧
    (interpolateZs2 z n).getD 0 [] = z.getD 0 [] ∧
    (interpolateZs2 z n).getD (n - 1) [] = z.getD 1 [] := by
  have hgen : ∀ i, i < n → (interpolateZs2 z n).getD i [] =
      vadd (z.getD 0 [])
        (smul ((i : ℚ) / ((n : ℚ) - 1)) (vsub (z.getD 1 []) (z.getD 0 []))) := by
    intro i hi
    simp only [interpolateZs2, linspace, List.map_map]
    rw [getD_map_range _ _ _ hi]
    simp only [Function.comp_apply]
    exact vadd_comm _ _
  refine ⟨hgen, ?_, ?_⟩
  · rw [hgen 0 (by omega)]
    simp only [Nat.cast_zero, zero_div]
    have hdiff : (vsub (z.getD 1 []) (z.getD 0 [])).length = (z.getD 0 []).length := by
      unfold vsub
      rw [List.length_zipWith, hlen, Nat.min_self]
    exact vadd_smul_zero _ _ hdiff
  · rw [hgen (n - 1) (by omega)]
    have hcast : (((n - 1 : ℕ)) : ℚ) = (n : ℚ) - 1 := by
      have h1 : (1 : ℕ) ≤ n := by omega
      push_cast [h1]
      ring
    have hne : (n : ℚ) - 1 ≠ 0 := by
      have h1 : (1 : ℚ) < (n : ℚ) := by exact_mod_cast hn
      exact sub_ne_zero.mpr (ne_of_gt h1)
    rw [hcast, div_self hne]
    exact vadd_smul_one _ _ hlen

/-- C6 witness: for `z0 = [1, 5]`, `z1 = [3, 9]` and `numSteps = 3`, the
first interpolated point is `z0` and the last is `z1`. -/
theorem interpolate_linear_witness :
    (interpolateZs2 [[1, 5], [3, 9]] 3).getD 0 [] = [1, 5] ∧
      (interpolateZs2 [[1, 5], [3, 9]] 3).getD 2 [] = [3, 9] :=
  ⟨(interpolate_linear [[1, 5], [3, 9]] 3 (by decide) (by decide)).2.1,
    (interpolate_linear [[1, 5], [3, 9]] 3 (by decide) (by decide)).2.2⟩

lemma getD_append_left {α : Type} (l l' : List α) (d0 : α) (i : ℕ)
    (h : i < l.length) : (l ++ l').getD i d0 = l.getD i d0 := by
  rw [List.getD_eq_getElem?_getD, List.getElem?_append_left h,
    ← List.getD_eq_getElem?_getD]

lemma getD_append_right_len {α : Type} (l l' : List α) (d0 : α) (i : ℕ)
    (h : l.length ≤ i) : (l ++ l').getD i d0 = l'.getD (i - l.length) d0 := by
  rw [List.getD_eq_getElem?_getD, List.getElem?_append_right h,
    ← List.getD_eq_getElem?_getD]

lemma flatten_getD {α : Type} (d0 : α) :
    ∀ (chunks : List (List α)) (n i j : ℕ),
      (∀ c ∈ chunks, c.length = n) → i < chunks.length → j < n →
      chunks.flatten.getD (i * n + j) d0 = (chunks.getD i []).getD j d0 := by
  intro chunks
  induction chunks with
  | nil => intro n i j _ hi _; simp at hi
  | cons c rest ih =>
      intro n i j hlen hi hj
      rw [List.flatten_cons]
      cases i with
      | zero =>
          have hc : c.length = n := hlen c (List.mem_cons_self _ _)
          rw [getD_append_left _ _ _ _ (by rw [hc]; simpa using hj)]
          simp
      | succ i2 =>
          have hc : c.length = n := hlen c (List.mem_cons_self _ _)
          have hmul : (i2 + 1) * n = i2 * n + n := by ring
          have hle : c.length ≤ (i2 + 1) * n + j := by rw [hc, hmul]; omega
          rw [getD_append_right_len _ _ _ _ hle]
          have harith : (i2 + 1) * n + j - c.length = i2 * n + j := by
            rw [hc, hmul]; omega
          rw [harith]
          rw [ih n i2 j (fun c2 hc2 => hlen c2 (List.mem_cons_of_mem _ hc2))
            (by simpa using hi) hj]
          rfl

lemma corner_chain : ∀ (z0 z1 z2 z3 : List ℚ),
    z1.length = z0.length → z2.length = z0.length → z3.length = z0.length →
    vadd (vadd (vadd (smul 1 z0) (smul 0 z1)) (smul 0 z2)) (smul 0 z3) = z0 ∧
    vadd (vadd (vadd (smul 0 z0) (smul 1 z1)) (smul 0 z2)) (smul 0 z3) = z1 ∧
    vadd (vadd (vadd (smul 0 z0) (smul 0 z1)) (smul 1 z2)) (smul 0 z3) = z2 ∧
    vadd (vadd (vadd (smul 0 z0) (smul 0 z1)) (smul 0 z2)) (smul 1 z3) = z3 := by
  intro z0
  induction z0 with
  | nil =>
      intro z1 z2 z3 h1 h2 h3
      have e1 : z1 = [] := List.length_eq_zero.mp (by simpa using h1)
      have e2 : z2 = [] := List.length_eq_zero.mp (by simpa using h2)
      have e3 : z3 = [] := List.length_eq_zero.mp (by simpa using h3)
      subst e1; subst e2; subst e3
      exact ⟨rfl, rfl, rfl, rfl⟩
  | cons x xs ih =>
      intro z1 z2 z3 h1 h2 h3
      cases z1 with
      | nil => simp at h1
      | cons y ys =>
          cases z2 with
          | nil => simp at h2
          | cons u us =>
              cases z3 with
              | nil => simp at h3
              | cons v vs =>
                  have iht := ih ys us vs (by simpa using h1) (by simpa using h2)
                    (by simpa using h3)
                  refine ⟨?_, ?_, ?_, ?_⟩
                  · show (1 * x + 0 * y + 0 * u + 0 * v) ::
                        vadd (vadd (vadd (smul 1 xs) (smul 0 ys)) (smul 0 us)) (smul 0 vs) =
                      x :: xs
                    rw [iht.1]; norm_num
                  · show (0 * x + 1 * y + 0 * u + 0 * v) ::
                        vadd (vadd (vadd (smul 0 xs) (smul 1 ys)) (smul 0 us)) (smul 0 vs) =
                      y :: ys
                    rw [iht.2.1]; norm_num
                  · show (0 * x + 0 * y + 1 * u + 0 * v) ::
                        vadd (vadd (vadd (smul 0 xs) (smul 0 ys)) (smul 1 us)) (smul 0 vs) =
                      u :: us
                    rw [iht.2.2.1]; norm_num
                  · show (0 * x + 0 * y + 0 * u + 1 * v) ::
                        vadd (vadd (vadd (smul 0 xs) (smul 0 ys)) (smul 0 us)) (smul 1 vs) =
                      v :: vs
                    rw [iht.2.2.2]; norm_num

/-- C4: for `N = 4` and `numSteps = n ≥ 2`, the latent at grid position
`(i, j)` (flattened row-major at index `i * n + j`, row ramp outer, column
ramp inner) is the bilinear blend
`z0*(1-r)(1-c) + z1*r(1-c) + z2*(1-r)c + z3*r*c` with `r = i/(n-1)`,
`c = j/(n-1)`; for `n = 2` the four grid corners are exactly
`z0, z1, z2, z3`. -/
theorem interpolate_bilinear (z : Mat) (n : ℕ) (hn : 2 ≤ n)
    (h1 : (z.getD 1 []).length = (z.getD 0 []).length)
    (h2 : (z.getD 2 []).length = (z.getD 0 []).length)
    (h3 : (z.getD 3 []).length = (z.getD 0 []).length) :
    (∀ i j, i < n → j < n →
      (interpolateZs4 z n).getD (i * n + j) [] =
        vadd (vadd (vadd
          (smul ((1 - (i : ℚ) / ((n : ℚ) - 1)) * (1 - (j : ℚ) / ((n : ℚ) - 1)))
            (z.getD 0 []))
          (smul (((i : ℚ) / ((n : ℚ) - 1)) * (1 - (j : ℚ) / ((n : ℚ) - 1)))
            (z.getD 1 [])))
          (smul ((1 - (i : ℚ) / ((n : ℚ) - 1)) * ((j : ℚ) / ((n : ℚ) - 1)))
            (z.getD 2 [])))
          (smul (((i : ℚ) / ((n : ℚ) - 1)) * ((j : ℚ) / ((n : ℚ) - 1)))
            (z.getD 3 []))) ∧
    (n = 2 →
      (interpolateZs4 z n).getD 0 [] = z.getD 0 [] ∧
      (interpolateZs4 z n).getD 2 [] = z.getD 1 [] ∧
      (interpolateZs4 z n).getD 1 [] = z.getD 2 [] ∧
      (interpolateZs4 z n).getD 3 [] = z.getD 3 []) := by
  have hgen : ∀ i j, i < n → j < n →
      (interpolateZs4 z n).getD (i * n + j) [] =
        vadd (vadd (vadd
          (smul ((1 - (i : ℚ) / ((n : ℚ) - 1)) * (1 - (j : ℚ) / ((n : ℚ) - 1)))
            (z.getD 0 []))
          (smul (((i : ℚ) / ((n : ℚ) - 1)) * (1 - (j : ℚ) / ((n : ℚ) - 1)))
            (z.getD 1 [])))
          (smul ((1 - (i : ℚ) / ((n : ℚ) - 1)) * ((j : ℚ) / ((n : ℚ) - 1)))
            (z.getD 2 [])))
          (smul (((i : ℚ) / ((n : ℚ) - 1)) * ((j : ℚ) / ((n : ℚ) - 1)))
            (z.getD 3 [])) := by
    intro i j hi hj
    simp only [interpolateZs4]
    rw [flatten_getD [] _ n i j (by
        intro c hc
        simp only [List.mem_map, List.mem_range] at hc
        obtain ⟨i2, _, rfl⟩ := hc
        simp) (by simpa using hi) hj]
    rw [getD_map_range _ _ _ hi, getD_map_range _ _ _ hj]
    simp only [linspace, getD_map_range _ _ _ hi, getD_map_range _ _ _ hj]
  refine ⟨hgen, ?_⟩
  intro hn2
  subst hn2
  have e00 := hgen 0 0 (by norm_num) (by norm_num)
  have e10 := hgen 1 0 (by norm_num) (by norm_num)
  have e01 := hgen 0 1 (by norm_num) (by norm_num)
  have e11 := hgen 1 1 (by norm_num) (by norm_num)
  norm_num at e00 e10 e01 e11
  refine ⟨?_, ?_, ?_, ?_⟩
  · rw [List.getD_eq_getElem?_getD, e00]
    simp only [← List.getD_eq_getElem?_getD]
    exact (corner_chain _ _ _ _ h1 h2 h3).1
  · rw [List.getD_eq_getElem?_getD, e10]
    simp only [← List.getD_eq_getElem?_getD]
    exact (corner_chain _ _ _ _ h1 h2 h3).2.1
  · rw [List.getD_eq_getElem?_getD, e01]
    simp only [← List.getD_eq_getElem?_getD]
    exact (corner_chain _ _ _ _ h1 h2 h3).2.2.1
  · rw [List.getD_eq_getElem?_getD, e11]
    simp only [← List.getD_eq_getElem?_getD]
    exact (corner_chain _ _ _ _ h1 h2 h3).2.2.2

/-- C4 witness: for `z = [[1], [2], [3], [4]]` and `numSteps = 2` the four
grid corners are `[1], [2], [3], [4]` at flattened indices 0, 2, 1, 3. -/
theorem interpolate_bilinear_witness :
    (interpolateZs4 [[1], [2], [3], [4]] 2).getD 0 [] = [1] ∧
      (interpolateZs4 [[1], [2], [3], [4]] 2).getD 2 [] = [2] ∧
      (interpolateZs4 [[1], [2], [3], [4]] 2).getD 1 [] = [3] ∧
      (interpolateZs4 [[1], [2], [3], [4]] 2).getD 3 [] = [4] :=
  (interpolate_bilinear [[1], [2], [3], [4]] 2 (by decide) (by decide) (by decide)
    (by decide)).2 rfl

end MagentaVAE
